import Mathlib

/-!
# Verification of the `Conflicts<T>` container

Shallow embedding of the template class `Conflicts<T>`
(`src/include/conflicts.hpp`) over the directed-pair store
`Requirements<T>`.  Objects of type `T` are modelled as natural numbers
(the only operations the code uses on `T` are equality comparison and
hashing, and the test suite instantiates `T` with an enum).  The pair
store is modelled as a list of directed pairs.

The two recursive traversals, `deep_search` and the private
`all_conflicts` helper, are embedded with an explicit fuel parameter
returning `Option` results: `none` means the fuel was exhausted, which on
a state where the C++ recursion diverges models that divergence, and on a
state where it terminates is ruled out by choosing enough fuel (we prove
fuel bounds for the states reachable through the public API).
-/

namespace Conflicts

/-- Modelled from the spec: the external PairStore / `Requirements<T>`
collaborator stores directed pairs; `exists(x, y)` is direction-sensitive
membership.  We model the store as a `List (Nat × Nat)`. -/
def pexists (s : List (Nat × Nat)) (x y : Nat) : Bool :=
  decide ((x, y) ∈ s)

/-- Modelled from the spec: `neighbors_as_a(x)` / `Requirements.requirements(x)`
returns every `y` such that the directed pair `(x, y)` is stored. -/
def requirements (s : List (Nat × Nat)) (x : Nat) : List Nat :=
  (s.filter fun p => p.1 == x).map Prod.snd

/-- Modelled from the spec: `neighbors_as_b(x)` / `Requirements.dependents(x)`
returns every `y` such that the directed pair `(y, x)` is stored. -/
def dependents (s : List (Nat × Nat)) (x : Nat) : List Nat :=
  (s.filter fun p => p.2 == x).map Prod.fst

/-- Modelled from the spec: `has_role_a(x)` — `x` appears as first element
of some stored pair. -/
def has_requirements (s : List (Nat × Nat)) (x : Nat) : Bool :=
  s.any fun p => p.1 == x

/-- Modelled from the spec: `has_role_b(x)` — `x` appears as second element
of some stored pair. -/
def has_dependents (s : List (Nat × Nat)) (x : Nat) : Bool :=
  s.any fun p => p.2 == x

/-- `Conflicts<T>::in_conflict(object)`: true iff the object participates in
at least one stored relation, in either direction. -/
def in_conflict_obj (s : List (Nat × Nat)) (x : Nat) : Bool :=
  has_requirements s x || has_dependents s x

/-- The neighbor filter of `deep_search`'s loops:
`prev == nullptr || !(*req == *prev || *req == object2)`. -/
def ds_allowed (prev : Option Nat) (object2 n : Nat) : Bool :=
  match prev with
  | none => true
  | some p => !(n == p || n == object2)

/-- One `while (!result && itr != end)` loop of `deep_search`: scan the
neighbor list, short-circuiting on a `true` result.  A recursive call that
runs out of fuel (`none`) makes the whole loop `none`, mirroring that the
C++ loop would never finish. -/
def search_loop (f : Nat → Option Bool) (allowed : Nat → Bool) :
    List Nat → Option Bool
  | [] => some false
  | n :: t =>
    if allowed n then
      match f n with
      | none => none
      | some true => some true
      | some false => search_loop f allowed t
    else search_loop f allowed t

/-- `Conflicts<T>::deep_search(object1, object2, prev)` with explicit fuel.
Checks the direct relation in both directions; if absent and cascading is
on, recurses into `object1`'s neighbors (requirements, then dependents),
excluding `prev` and `object2` at non-root levels. -/
def deep_search (s : List (Nat × Nat)) (cascading : Bool) :
    Nat → Nat → Nat → Option Nat → Option Bool
  | 0, _, _, _ => none
  | fuel + 1, object1, object2, prev =>
    if pexists s object1 object2 || pexists s object2 object1 then some true
    else if !cascading then some false
    else
      match search_loop (fun n => deep_search s cascading fuel n object2 (some object1))
          (ds_allowed prev object2) (requirements s object1) with
      | none => none
      | some true => some true
      | some false =>
        search_loop (fun n => deep_search s cascading fuel n object2 (some object1))
          (ds_allowed prev object2) (dependents s object1)

/-- `Conflicts<T>::in_conflict(object1, object2)`: `deep_search(o1, o2)` and,
if that returned false, `deep_search(o2, o1)`. -/
def in_conflict (s : List (Nat × Nat)) (cascading : Bool) (fuel : Nat)
    (object1 object2 : Nat) : Option Bool :=
  match deep_search s cascading fuel object1 object2 none with
  | none => none
  | some true => some true
  | some false => deep_search s cascading fuel object2 object1 none

/-- `Conflicts<T>::conflicts(object)`: direct neighbors, requirements first,
then dependents. -/
def conflicts (s : List (Nat × Nat)) (x : Nat) : List Nat :=
  requirements s x ++ dependents s x

/-- The neighbor filter of the `all_conflicts` helper:
`prev == nullptr || !(con == *prev)`. -/
def ac_allowed (prev : Option Nat) (n : Nat) : Bool :=
  match prev with
  | none => true
  | some p => !(n == p)

/-- One collection loop of the `all_conflicts` helper: for each allowed
neighbor push it and, when `cascading` is on, splice in the recursive
expansion. -/
def collect_loop (f : Nat → Option (List Nat)) (allowed : Nat → Bool)
    (cascading : Bool) : List Nat → Option (List Nat)
  | [] => some []
  | n :: t =>
    if allowed n then
      if cascading then
        match f n with
        | none => none
        | some res =>
          match collect_loop f allowed cascading t with
          | none => none
          | some rest => some (n :: (res ++ rest))
      else
        match collect_loop f allowed cascading t with
        | none => none
        | some rest => some (n :: rest)
    else collect_loop f allowed cascading t

/-- The private helper `Conflicts<T>::all_conflicts(object, prev)` of
`src/include/conflicts.hpp`, with explicit fuel: collects allowed
requirements then allowed dependents, recursing when cascading is on. -/
def all_conflicts_aux (s : List (Nat × Nat)) (cascading : Bool) :
    Nat → Nat → Option Nat → Option (List Nat)
  | 0, _, _ => none
  | fuel + 1, object, prev =>
    match collect_loop (fun n => all_conflicts_aux s cascading fuel n (some object))
        (ac_allowed prev) cascading (requirements s object) with
    | none => none
    | some r1 =>
      match collect_loop (fun n => all_conflicts_aux s cascading fuel n (some object))
          (ac_allowed prev) cascading (dependents s object) with
      | none => none
      | some r2 => some (r1 ++ r2)

/-- The public `Conflicts<T>::all_conflicts(object)` of
`src/include/conflicts.hpp`: always calls the helper with `prev = nullptr`. -/
def all_conflicts (s : List (Nat × Nat)) (cascading : Bool) (fuel : Nat)
    (object : Nat) : Option (List Nat) :=
  all_conflicts_aux s cascading fuel object none

/-- The public `all_conflicts(object)` of the second source version
(namespaced `Conflicts::Conflicts<T>`): returns `conflicts(object)` outright
when cascading is off, and calls its helper otherwise.  That version's
helper always recurses, which coincides with `all_conflicts_aux` at
`cascading = true`. -/
def all_conflicts_v2 (s : List (Nat × Nat)) (cascading : Bool) (fuel : Nat)
    (object : Nat) : Option (List Nat) :=
  if cascading then all_conflicts_aux s true fuel object none
  else some (conflicts s object)

/-- Fuel sufficient for every traversal on the states reachable through the
public API: recursion depth is bounded by the number of vertices, which is
at most twice the number of stored pairs, plus one for the root call. -/
def default_fuel (s : List (Nat × Nat)) : Nat :=
  2 * s.length + 2

/-- Success guard of `Conflicts<T>::add`: the two assertions
`!(object1 == object2)` and `!in_conflict(object1, object2)` both pass
(the search, run with default fuel, terminates with `false`). -/
def addOK (s : List (Nat × Nat)) (cascading : Bool) (a b : Nat) : Prop :=
  a ≠ b ∧ in_conflict s cascading (default_fuel s) a b = some false

instance (s : List (Nat × Nat)) (cascading : Bool) (a b : Nat) :
    Decidable (addOK s cascading a b) :=
  inferInstanceAs (Decidable (_ ∧ _))

/-- State change of a successful `Conflicts<T>::add(object1, object2)`:
one new directed pair is stored. -/
def add (s : List (Nat × Nat)) (a b : Nat) : List (Nat × Nat) :=
  s ++ [(a, b)]

/-- Success guard of `Conflicts<T>::remove(object1, object2)`: at least one
direction is stored (`assert(found ...)`). -/
def removeOK (s : List (Nat × Nat)) (a b : Nat) : Prop :=
  (a, b) ∈ s ∨ (b, a) ∈ s

instance (s : List (Nat × Nat)) (a b : Nat) : Decidable (removeOK s a b) :=
  inferInstanceAs (Decidable (_ ∨ _))

/-- State change of `Conflicts<T>::remove(object1, object2)`: each direction
that is stored gets removed (`List.erase` is the identity on an absent
pair, matching the `exists` guards in the code). -/
def remove_pair (s : List (Nat × Nat)) (a b : Nat) : List (Nat × Nat) :=
  (s.erase (a, b)).erase (b, a)

/-- State change of `Conflicts<T>::remove(object)`: every pair in which the
object participates, in either role, is removed. -/
def remove_all (s : List (Nat × Nat)) (a : Nat) : List (Nat × Nat) :=
  s.filter fun p => !(p.1 == a || p.2 == a)

/-- `Conflicts<T>::get()`: snapshot of the stored directed pairs. -/
def get (s : List (Nat × Nat)) : List (Nat × Nat) :=
  s

/-- `Conflicts<T>::merge(conflicts)`: iterate the given pairs calling `add`
for each; `none` models the first failing `add` (assertion, or a
non-terminating search). -/
def mergeO (cascading : Bool) : List (Nat × Nat) → List (Nat × Nat) →
    Option (List (Nat × Nat))
  | s, [] => some s
  | s, (a, b) :: t =>
    if a = b then none
    else
      match in_conflict s cascading (default_fuel s) a b with
      | some false => mergeO cascading (add s a b) t
      | _ => none

/-- `Conflicts<T>::set(conflicts)`: `clear()` then `merge(conflicts)`. -/
def setO (cascading : Bool) (_s l : List (Nat × Nat)) :
    Option (List (Nat × Nat)) :=
  mergeO cascading [] l

/-! ## Basic lemmas about the pair-store model -/

@[simp]
lemma pexists_iff {s : List (Nat × Nat)} {x y : Nat} :
    pexists s x y = true ↔ (x, y) ∈ s := by
  simp [pexists]

@[simp]
lemma mem_requirements {s : List (Nat × Nat)} {x n : Nat} :
    n ∈ requirements s x ↔ (x, n) ∈ s := by
  constructor
  · intro h
    simp only [requirements, List.mem_map, List.mem_filter, beq_iff_eq] at h
    obtain ⟨p, ⟨hp, h1⟩, h2⟩ := h
    have : p = (x, n) := by
      cases p
      simp_all
    exact this ▸ hp
  · intro h
    simp only [requirements, List.mem_map, List.mem_filter, beq_iff_eq]
    exact ⟨(x, n), ⟨h, rfl⟩, rfl⟩

@[simp]
lemma mem_dependents {s : List (Nat × Nat)} {x n : Nat} :
    n ∈ dependents s x ↔ (n, x) ∈ s := by
  constructor
  · intro h
    simp only [dependents, List.mem_map, List.mem_filter, beq_iff_eq] at h
    obtain ⟨p, ⟨hp, h1⟩, h2⟩ := h
    have : p = (n, x) := by
      cases p
      simp_all
    exact this ▸ hp
  · intro h
    simp only [dependents, List.mem_map, List.mem_filter, beq_iff_eq]
    exact ⟨(n, x), ⟨h, rfl⟩, rfl⟩

@[simp]
lemma ac_allowed_none (n : Nat) : ac_allowed none n = true := rfl

/-- Without cascading, a collection loop just filters the neighbor list. -/
lemma collect_loop_nocasc (f : Nat → Option (List Nat)) (allowed : Nat → Bool)
    (l : List Nat) : collect_loop f allowed false l = some (l.filter allowed) := by
  induction l with
  | nil => rfl
  | cons n t ih =>
    by_cases h : allowed n = true
    · simp [collect_loop, h, ih, List.filter_cons]
    · simp only [Bool.not_eq_true] at h
      simp [collect_loop, h, ih, List.filter_cons]

/-- With `prev = none` and no cascading, a collection loop returns the
whole neighbor list. -/
lemma collect_loop_none_nocasc (f : Nat → Option (List Nat)) (l : List Nat) :
    collect_loop f (ac_allowed none) false l = some l := by
  rw [collect_loop_nocasc]
  simp

/-- The helper with positive fuel and cascading off returns exactly the
direct-conflicts list. -/
lemma all_conflicts_aux_nocasc (s : List (Nat × Nat)) (fuel : Nat) (x : Nat) :
    all_conflicts_aux s false (fuel + 1) x none = some (conflicts s x) := by
  simp [all_conflicts_aux, collect_loop_none_nocasc, conflicts]

/-! ## Claim theorems: direct computations -/

/-- Claim C6: when cascading is disabled, `all_conflicts(a)` returns a
sequence identical to `conflicts(a)` (the concatenation of `a`'s direct
neighbors in either stored direction), for every store and every node,
whenever the call is given any positive amount of fuel (the call performs
no recursion, so one unit is what the code consumes). -/
theorem C6_all_conflicts_no_cascading (s : List (Nat × Nat)) (fuel : Nat)
    (a : Nat) : all_conflicts s false (fuel + 1) a = some (conflicts s a) := by
  unfold all_conflicts
  exact all_conflicts_aux_nocasc s fuel a

/-- Claim C10: the two source versions of `all_conflicts` are observably
equivalent: the version guarding recursion on the cascading flag inside
the helper loop (`all_conflicts`) agrees, on every store, mode, node and
positive fuel, with the version that returns `conflicts(object)` early
when cascading is off and whose helper always recurses
(`all_conflicts_v2`). -/
theorem C10_all_conflicts_versions_equivalent (s : List (Nat × Nat))
    (cascading : Bool) (fuel : Nat) (a : Nat) :
    all_conflicts s cascading (fuel + 1) a = all_conflicts_v2 s cascading (fuel + 1) a := by
  cases cascading with
  | true => rfl
  | false =>
    unfold all_conflicts all_conflicts_v2
    simp [all_conflicts_aux_nocasc]

/-- Claim C8: in the concrete cascading scenario of the test suite
(`Kyle = 0`, `John = 1`, `Harry = 2`, `Jack = 3`, `Joe = 4`, with relations
Kyle–Harry, Harry–Joe, Jack–Joe, John–Jack and cascading enabled),
`in_conflict(Kyle, John)` is true, `all_conflicts(John)` has exactly 4
elements which are exactly the other four nodes, `conflicts(Kyle)` has
exactly 1 element, and a direct `add(Kyle, John)` fails. -/
theorem C8_concrete_cascading_scenario :
    in_conflict [(0, 2), (2, 4), (3, 4), (1, 3)] true
      (default_fuel [(0, 2), (2, 4), (3, 4), (1, 3)]) 0 1 = some true
    ∧ all_conflicts [(0, 2), (2, 4), (3, 4), (1, 3)] true
      (default_fuel [(0, 2), (2, 4), (3, 4), (1, 3)]) 1 = some [3, 4, 2, 0]
    ∧ List.Perm [3, 4, 2, 0] [0, 2, 3, 4]
    ∧ conflicts [(0, 2), (2, 4), (3, 4), (1, 3)] 0 = [2]
    ∧ ¬ addOK [(0, 2), (2, 4), (3, 4), (1, 3)] true 0 1 := by
  refine ⟨by decide, by decide, by decide, by decide, by decide⟩

/-! ## Graph infrastructure: adjacency, connectivity, non-backtracking walks -/

/-- Undirected adjacency induced by the directed pair store. -/
def Adjacent (s : List (Nat × Nat)) (x y : Nat) : Prop :=
  (x, y) ∈ s ∨ (y, x) ∈ s

/-- Connectivity along stored relations. -/
def Conn (s : List (Nat × Nat)) : Nat → Nat → Prop :=
  Relation.ReflTransGen (Adjacent s)

lemma Adjacent.symm {s : List (Nat × Nat)} {x y : Nat}
    (h : Adjacent s x y) : Adjacent s y x :=
  h.elim Or.inr Or.inl

lemma adjacent_mono {s s' : List (Nat × Nat)} (hsub : ∀ p, p ∈ s' → p ∈ s)
    {x y : Nat} (h : Adjacent s' x y) : Adjacent s x y :=
  h.elim (fun h1 => Or.inl (hsub _ h1)) fun h1 => Or.inr (hsub _ h1)

lemma conn_refl (s : List (Nat × Nat)) (x : Nat) : Conn s x x :=
  Relation.ReflTransGen.refl

lemma conn_symm {s : List (Nat × Nat)} {x y : Nat} (h : Conn s x y) :
    Conn s y x :=
  Relation.ReflTransGen.symmetric (fun _ _ hxy => hxy.symm) h

lemma conn_trans {s : List (Nat × Nat)} {x y z : Nat} (h1 : Conn s x y)
    (h2 : Conn s y z) : Conn s x z :=
  Relation.ReflTransGen.trans h1 h2

lemma conn_mono {s s' : List (Nat × Nat)} (hsub : ∀ p, p ∈ s' → p ∈ s)
    {x y : Nat} (h : Conn s' x y) : Conn s x y :=
  Relation.ReflTransGen.mono (fun _ _ hadj => adjacent_mono hsub hadj) h

lemma conn_empty {x y : Nat} (h : Conn [] x y) : x = y := by
  induction h with
  | refl => rfl
  | tail _ hadj ih =>
    rcases hadj with h1 | h1 <;> simp at h1

/-- Non-backtracking walk: consecutive vertices are adjacent and no vertex
equals the one two positions later (the `prev` exclusion of the code). -/
def NBW (s : List (Nat × Nat)) : List Nat → Prop
  | x :: y :: l => Adjacent s x y ∧ (∀ z, l.head? = some z → x ≠ z) ∧ NBW s (y :: l)
  | _ => True

@[simp]
lemma nbw_nil (s : List (Nat × Nat)) : NBW s [] := trivial

@[simp]
lemma nbw_single (s : List (Nat × Nat)) (x : Nat) : NBW s [x] := trivial

lemma nbw_cons_cons {s : List (Nat × Nat)} {x y : Nat} {l : List Nat} :
    NBW s (x :: y :: l) ↔
      Adjacent s x y ∧ (∀ z, l.head? = some z → x ≠ z) ∧ NBW s (y :: l) := by
  simp [NBW]

lemma nbw_tail {s : List (Nat × Nat)} {x : Nat} {l : List Nat}
    (h : NBW s (x :: l)) : NBW s l := by
  cases l with
  | nil => trivial
  | cons y t => exact (nbw_cons_cons.mp h).2.2

/-- Walks only depend on the adjacency relation of the store. -/
lemma nbw_of_adj_imp {s s' : List (Nat × Nat)}
    (hadj : ∀ x y, Adjacent s' x y → Adjacent s x y) :
    ∀ {l : List Nat}, NBW s' l → NBW s l
  | [], _ => trivial
  | [_], _ => trivial
  | x :: y :: t, h => by
    rw [nbw_cons_cons] at h ⊢
    exact ⟨hadj x y h.1, h.2.1, nbw_of_adj_imp hadj h.2.2⟩

lemma nbw_of_append_left {s : List (Nat × Nat)} :
    ∀ {l1 l2 : List Nat}, NBW s (l1 ++ l2) → NBW s l1
  | [], _, _ => trivial
  | [_], _, _ => trivial
  | x :: y :: t, l2, h => by
    rw [List.cons_append, List.cons_append, nbw_cons_cons] at h
    rw [nbw_cons_cons]
    refine ⟨h.1, ?_, nbw_of_append_left (by rw [List.cons_append]; exact h.2.2)⟩
    intro z hz
    refine h.2.1 z ?_
    cases t with
    | nil => simp at hz
    | cons a t' => simpa using hz

lemma nbw_suffix {s : List (Nat × Nat)} :
    ∀ {l1 l2 : List Nat}, NBW s (l1 ++ l2) → NBW s l2
  | [], _, h => h
  | x :: t, l2, h => @nbw_suffix s t l2 (nbw_tail (by rwa [List.cons_append] at h))

lemma nbw_chain' {s : List (Nat × Nat)} :
    ∀ {l : List Nat}, NBW s l → l.Chain' (Adjacent s)
  | [], _ => List.chain'_nil
  | [_], _ => List.chain'_singleton _
  | x :: y :: t, h => by
    rw [nbw_cons_cons] at h
    exact List.Chain'.cons h.1 (nbw_chain' h.2.2)

/-- A duplicate-free walk never backtracks. -/
lemma nbw_of_chain'_nodup {s : List (Nat × Nat)} :
    ∀ {l : List Nat}, l.Chain' (Adjacent s) → l.Nodup → NBW s l
  | [], _, _ => trivial
  | [_], _, _ => trivial
  | x :: y :: t, hc, hnd => by
    rw [List.chain'_cons] at hc
    rw [nbw_cons_cons]
    refine ⟨hc.1, ?_, nbw_of_chain'_nodup hc.2 (List.Nodup.of_cons hnd)⟩
    intro z hz hxz
    subst hxz
    have : x ∈ y :: t := by
      cases t with
      | nil => simp at hz
      | cons a t' =>
        simp only [List.head?_cons, Option.some.injEq] at hz
        subst hz
        exact List.mem_cons_of_mem _ (List.mem_cons_self _ _)
    exact (List.nodup_cons.mp hnd).1 this

/-- Every vertex of a walk is connected to the walk's head. -/
lemma chain'_conn_head {s : List (Nat × Nat)} :
    ∀ {x : Nat} {l : List Nat}, (x :: l).Chain' (Adjacent s) →
      ∀ y ∈ x :: l, Conn s x y := by
  intro x l
  induction l generalizing x with
  | nil =>
    intro _ y hy
    rw [List.mem_singleton] at hy
    exact hy ▸ conn_refl s x
  | cons a t ih =>
    intro hc y hy
    rw [List.chain'_cons] at hc
    rcases List.mem_cons.mp hy with rfl | hy'
    · exact conn_refl s y
    · exact Relation.ReflTransGen.head hc.1 (ih hc.2 y hy')

/-- Any two vertices of a walk are connected. -/
lemma chain'_conn_mem {s : List (Nat × Nat)} {w : List Nat}
    (hc : w.Chain' (Adjacent s)) {x y : Nat} (hx : x ∈ w) (hy : y ∈ w) :
    Conn s x y := by
  cases w with
  | nil => simp at hx
  | cons h t =>
    exact conn_trans (conn_symm (chain'_conn_head hc x hx)) (chain'_conn_head hc y hy)

/-- Connectivity is witnessed by a walk. -/
lemma conn_exists_walk {s : List (Nat × Nat)} {x y : Nat} (h : Conn s x y) :
    ∃ l : List Nat, l.Chain' (Adjacent s) ∧ l.head? = some x ∧ l.getLast? = some y := by
  induction h with
  | refl => exact ⟨[x], List.chain'_singleton x, rfl, rfl⟩
  | @tail b c hconn hadj ih =>
    obtain ⟨l, hc, hh, hl⟩ := ih
    refine ⟨l ++ [c], ?_, ?_, ?_⟩
    · rw [List.chain'_append]
      refine ⟨hc, List.chain'_singleton c, ?_⟩
      intro p hp q hq
      simp only [List.head?_cons, Option.mem_def, Option.some.injEq] at hq
      rw [Option.mem_def, hl] at hp
      cases hp
      cases hq
      exact hadj
    · cases l with
      | nil => simp at hh
      | cons a t => simpa using hh
    · simp

/-- A list with a duplicate splits around the repeated element. -/
lemma not_nodup_decomp :
    ∀ {l : List Nat}, ¬ l.Nodup →
      ∃ l1 c l2 l3, l = l1 ++ c :: (l2 ++ c :: l3) := by
  intro l
  induction l with
  | nil => intro h; exact absurd List.nodup_nil h
  | cons x t ih =>
    intro h
    by_cases hx : x ∈ t
    · obtain ⟨u, v, rfl⟩ := List.append_of_mem hx
      exact ⟨[], x, u, v, rfl⟩
    · have : ¬ t.Nodup := fun hnd => h (List.nodup_cons.mpr ⟨hx, hnd⟩)
      obtain ⟨l1, c, l2, l3, rfl⟩ := ih this
      exact ⟨x :: l1, c, l2, l3, rfl⟩

/-- Every walk shortens to a duplicate-free walk with the same endpoints. -/
lemma chain'_to_nodup :
    ∀ (n : Nat) {s : List (Nat × Nat)} (l : List Nat), l.length ≤ n →
      l.Chain' (Adjacent s) →
      ∃ p : List Nat, p.Chain' (Adjacent s) ∧ p.Nodup ∧
        p.head? = l.head? ∧ p.getLast? = l.getLast? := by
  intro n
  induction n with
  | zero =>
    intro s l hlen _
    rw [Nat.le_zero, List.length_eq_zero] at hlen
    subst hlen
    exact ⟨[], List.chain'_nil, List.nodup_nil, rfl, rfl⟩
  | succ n ih =>
    intro s l hlen hc
    by_cases hnd : l.Nodup
    · exact ⟨l, hc, hnd, rfl, rfl⟩
    · obtain ⟨l1, c, l2, l3, rfl⟩ := not_nodup_decomp hnd
      have hsplit : l1 ++ c :: (l2 ++ c :: l3) = l1 ++ ((c :: l2) ++ (c :: l3)) := by
        simp
      rw [hsplit, List.chain'_append, List.chain'_append] at hc
      obtain ⟨hc1, ⟨hc2, hc3, hj2⟩, hj1⟩ := hc
      have hcnew : (l1 ++ c :: l3).Chain' (Adjacent s) := by
        rw [List.chain'_append]
        refine ⟨hc1, hc3, ?_⟩
        intro p hp q hq
        exact hj1 p hp q (by simpa using hq)
      have hlen' : (l1 ++ c :: l3).length ≤ n := by
        simp only [List.length_append, List.length_cons] at hlen ⊢
        omega
      obtain ⟨p, hpc, hpnd, hph, hpl⟩ := ih (l1 ++ c :: l3) hlen' hcnew
      refine ⟨p, hpc, hpnd, ?_, ?_⟩
      · rw [hph]
        cases l1 with
        | nil => rfl
        | cons a t => rfl
      · rw [hpl, List.getLast?_append_cons, List.getLast?_append_cons,
          show c :: (l2 ++ c :: l3) = (c :: l2) ++ c :: l3 from by simp,
          List.getLast?_append_cons]

/-- Connected vertices are joined by a duplicate-free walk. -/
lemma conn_to_path {s : List (Nat × Nat)} {x y : Nat} (h : Conn s x y) :
    ∃ p : List Nat, p.Chain' (Adjacent s) ∧ p.Nodup ∧
      p.head? = some x ∧ p.getLast? = some y := by
  obtain ⟨l, hc, hh, hl⟩ := conn_exists_walk h
  obtain ⟨p, hpc, hpnd, hph, hpl⟩ := chain'_to_nodup l.length l le_rfl hc
  exact ⟨p, hpc, hpnd, hph.trans hh, hpl.trans hl⟩

/-! ## The forest invariant -/

/-- Forest property: every non-backtracking walk is duplicate-free.  On such
stores the predecessor-exclusion recursion of `deep_search` and of the
`all_conflicts` helper can never revisit a vertex, which bounds its depth;
it is the acyclicity invariant that cascading-mode `add` maintains. -/
def Forest (s : List (Nat × Nat)) : Prop :=
  ∀ l, NBW s l → l.Nodup

lemma forest_nil : Forest ([] : List (Nat × Nat)) := by
  intro l hl
  cases l with
  | nil => exact List.nodup_nil
  | cons x t =>
    cases t with
    | nil => simp
    | cons y t' =>
      rw [nbw_cons_cons] at hl
      rcases hl.1 with h | h <;> simp at h

lemma forest_of_adj_imp {s s' : List (Nat × Nat)}
    (hadj : ∀ x y, Adjacent s' x y → Adjacent s x y) (hF : Forest s) :
    Forest s' :=
  fun l hl => hF l (nbw_of_adj_imp hadj hl)

lemma forest_mono {s s' : List (Nat × Nat)} (hsub : ∀ p, p ∈ s' → p ∈ s)
    (hF : Forest s) : Forest s' :=
  forest_of_adj_imp (fun _ _ h => adjacent_mono hsub h) hF

/-- Split a non-backtracking walk over an extended store at the first use
of the added edge: either the walk never uses the edge, or it decomposes
into a pure prefix ending at one endpoint followed by the edge step. -/
lemma nbw_split {a b : Nat} {s' : List (Nat × Nat)} :
    ∀ {l : List Nat}, NBW ((a, b) :: s') l →
      NBW s' l ∨ ∃ l1 u v l2, l = l1 ++ u :: v :: l2 ∧
        ((u = a ∧ v = b) ∨ (u = b ∧ v = a)) ∧
        NBW s' (l1 ++ [u]) ∧ NBW ((a, b) :: s') (u :: v :: l2)
  | [], _ => Or.inl trivial
  | [_], _ => Or.inl trivial
  | x :: y :: t, h => by
    rw [nbw_cons_cons] at h
    obtain ⟨hadj, hsep, hrest⟩ := h
    by_cases huse : (x = a ∧ y = b) ∨ (x = b ∧ y = a)
    · right
      refine ⟨[], x, y, t, rfl, huse, nbw_single _ x, ?_⟩
      rw [nbw_cons_cons]
      exact ⟨hadj, hsep, hrest⟩
    · have hadj' : Adjacent s' x y := by
        rcases hadj with hm | hm
        · rcases List.mem_cons.mp hm with he | hm'
          · exact absurd (Or.inl ⟨congrArg Prod.fst he, congrArg Prod.snd he⟩) huse
          · exact Or.inl hm'
        · rcases List.mem_cons.mp hm with he | hm'
          · exact absurd (Or.inr ⟨congrArg Prod.snd he, congrArg Prod.fst he⟩) huse
          · exact Or.inr hm'
      rcases nbw_split hrest with hpure | ⟨l1, u, v, l2, heq, huv, hw1, hw2⟩
      · left
        rw [nbw_cons_cons]
        exact ⟨hadj', hsep, hpure⟩
      · right
        cases l1 with
        | nil =>
          rw [List.nil_append] at heq
          injection heq with h1 h2
          subst h1
          subst h2
          refine ⟨[x], y, v, l2, rfl, huv, ?_, hw2⟩
          rw [show ([x] ++ [y] : List Nat) = [x, y] from rfl, nbw_cons_cons]
          exact ⟨hadj', by intro z hz; simp at hz, nbw_single _ y⟩
        | cons y' l1' =>
          rw [List.cons_append] at heq
          obtain ⟨rfl, ht⟩ : y = y' ∧ t = l1' ++ u :: v :: l2 := by
            injection heq with h1 h2
            exact ⟨h1, h2⟩
          refine ⟨x :: y :: l1', u, v, l2, by rw [ht]; rfl, huv, ?_, hw2⟩
          rw [List.cons_append, List.cons_append, nbw_cons_cons]
          refine ⟨hadj', ?_, by rwa [List.cons_append] at hw1⟩
          intro z hz
          refine hsep z ?_
          rw [ht]
          cases l1' with
          | nil => simpa using hz
          | cons w l1'' => simpa using hz

/-- Inserting an edge between two vertices that are not yet connected
preserves the forest property.  This is what cascading `add` does. -/
lemma forest_insert {s' : List (Nat × Nat)} {a b : Nat} (hF : Forest s')
    (hab : a ≠ b) (hconn : ¬ Conn s' a b) : Forest ((a, b) :: s') := by
  intro l hl
  rcases nbw_split hl with hpure | ⟨l1, u, v, l2, Heq, huv, hw1, hw2⟩
  · exact hF l hpure
  · have hw2t : NBW ((a, b) :: s') (v :: l2) := nbw_tail hw2
    have huvconn : ¬ Conn s' u v := by
      rcases huv with ⟨rfl, rfl⟩ | ⟨rfl, rfl⟩
      · exact hconn
      · exact fun h => hconn (conn_symm h)
    have huvne : u ≠ v := by
      rcases huv with ⟨rfl, rfl⟩ | ⟨rfl, rfl⟩
      · exact hab
      · exact hab.symm
    have hpure2 : NBW s' (v :: l2) := by
      rcases nbw_split hw2t with h | ⟨m1, u', v', m2, Heq2, huv2, hm1, hm2⟩
      · exact h
      · exfalso
        have hchain : (m1 ++ [u']).Chain' (Adjacent s') := nbw_chain' hm1
        have hhead : (m1 ++ [u']).head? = some v := by
          cases m1 with
          | nil =>
            rw [List.nil_append] at Heq2
            injection Heq2 with h1 _
            rw [List.nil_append, List.head?_cons, h1]
          | cons w m1' =>
            rw [List.cons_append] at Heq2
            injection Heq2 with h1 _
            rw [List.cons_append, List.head?_cons, h1]
        have hveq : v = u' ∨ Conn s' a b := by
          by_cases hvu : v = u'
          · exact Or.inl hvu
          · right
            have hconn' : Conn s' v u' := by
              refine chain'_conn_mem hchain ?_ ?_
              · exact List.mem_of_mem_head? (by rw [hhead]; rfl)
              · simp
            have hv : v = a ∨ v = b := by
              rcases huv with ⟨_, h2⟩ | ⟨_, h2⟩
              · exact Or.inr h2
              · exact Or.inl h2
            have hu' : u' = a ∨ u' = b := by
              rcases huv2 with ⟨h1, _⟩ | ⟨h1, _⟩
              · exact Or.inl h1
              · exact Or.inr h1
            rcases hv with hv | hv <;> rcases hu' with hu' | hu'
            · exact absurd (hv.trans hu'.symm) hvu
            · rw [hv, hu'] at hconn'
              exact hconn'
            · rw [hv, hu'] at hconn'
              exact conn_symm hconn'
            · exact absurd (hv.trans hu'.symm) hvu
        rcases hveq with rfl | hcontra
        · have hm1nil : m1 = [] := by
            cases m1 with
            | nil => rfl
            | cons w m1' =>
              exfalso
              have hnd : ((w :: m1') ++ [v]).Nodup := hF _ hm1
              rw [List.cons_append, List.head?_cons] at hhead
              injection hhead with hw
              rw [List.cons_append, List.nodup_cons] at hnd
              exact hnd.1 (by rw [hw]; simp)
          subst hm1nil
          rw [List.nil_append] at Heq2
          injection Heq2 with _ hl2
          have hv'u : v' = u := by
            rcases huv with ⟨rfl, rfl⟩ | ⟨rfl, rfl⟩ <;>
              rcases huv2 with ⟨h1, h2⟩ | ⟨h1, h2⟩
            · exact absurd h1.symm huvne
            · exact h2
            · exact h2
            · exact absurd h1.symm huvne
          rw [nbw_cons_cons] at hw2
          refine hw2.2.1 u ?_ rfl
          rw [hl2, hv'u, List.head?_cons]
        · exact hconn hcontra
    have hnd1 : (l1 ++ [u]).Nodup := hF _ hw1
    have hnd2 : (v :: l2).Nodup := hF _ hpure2
    have hdisj : (l1 ++ [u]).Disjoint (v :: l2) := by
      intro x hx1 hx2
      have hc1 : Conn s' x u :=
        chain'_conn_mem (nbw_chain' hw1) hx1 (by simp)
      have hc2 : Conn s' x v :=
        chain'_conn_mem (nbw_chain' hpure2) hx2 (List.mem_cons_self _ _)
      exact huvconn (conn_trans (conn_symm hc1) hc2)
    have : ((l1 ++ [u]) ++ v :: l2).Nodup := List.Nodup.append hnd1 hnd2 hdisj
    rwa [List.append_assoc, List.singleton_append, ← Heq] at this

/-- Append a closing step to a non-backtracking walk: the new vertex must be
adjacent to the walk's last vertex and distinct from its second-to-last. -/
lemma nbw_snoc {s : List (Nat × Nat)} {c : Nat} :
    ∀ {p : List Nat}, NBW s p →
      (∀ z, p.getLast? = some z → Adjacent s z c) →
      (∀ z w t, p = t ++ [z, w] → z ≠ c) →
      NBW s (p ++ [c])
  | [], _, _, _ => by simp
  | [x], _, hadj, _ => by
    rw [List.singleton_append, nbw_cons_cons]
    refine ⟨hadj x rfl, ?_, trivial⟩
    intro z hz
    simp at hz
  | x :: y :: ts, h, hadj, hsep2 => by
    rw [nbw_cons_cons] at h
    cases ts with
    | nil =>
      simp only [List.cons_append, List.nil_append]
      rw [nbw_cons_cons]
      refine ⟨h.1, ?_, ?_⟩
      · intro z hz
        simp only [List.head?_cons, Option.some.injEq] at hz
        subst hz
        exact hsep2 x y [] rfl
      · rw [nbw_cons_cons]
        refine ⟨hadj y rfl, ?_, trivial⟩
        intro z hz
        simp at hz
    | cons w ts' =>
      have hrec : NBW s ((y :: w :: ts') ++ [c]) :=
        nbw_snoc h.2.2
          (fun z hz => hadj z (by rw [List.getLast?_cons_cons]; exact hz))
          (fun z w' t heq => hsep2 z w' (x :: t) (by rw [List.cons_append, ← heq]))
      simp only [List.cons_append] at hrec ⊢
      rw [nbw_cons_cons]
      refine ⟨h.1, ?_, hrec⟩
      intro z hz
      rw [List.head?_cons] at hz
      injection hz with hz
      rw [← hz]
      exact h.2.1 w rfl

/-- Modulo the one-direction invariant, every stored pair of a forest is a
bridge: removing it disconnects its endpoints. -/
lemma forest_bridge {s : List (Nat × Nat)} {a b : Nat} (hF : Forest s)
    (hnd : s.Nodup) (hOD : (b, a) ∉ s) (hmem : (a, b) ∈ s) (hab : a ≠ b) :
    ¬ Conn (s.erase (a, b)) a b := by
  intro hconn
  obtain ⟨p, hpc, hpnd, hph, hpl⟩ := conn_to_path hconn
  have hsub : ∀ q, q ∈ s.erase (a, b) → q ∈ s :=
    fun q hq => (List.erase_sublist _ _).subset hq
  have hpc' : p.Chain' (Adjacent s) :=
    hpc.imp fun _ _ h => adjacent_mono hsub h
  obtain ⟨rest, rfl⟩ : ∃ rest, p = a :: rest := by
    cases p with
    | nil => simp at hph
    | cons x rest =>
      rw [List.head?_cons] at hph
      injection hph with h
      exact ⟨rest, by rw [h]⟩
  cases rest with
  | nil =>
    have hba : a = b := by simpa using hpl
    exact hab hba
  | cons y rest' =>
  cases rest' with
  | nil =>
    have hyb : y = b := by simpa using hpl
    subst hyb
    rw [List.chain'_cons] at hpc
    rcases hpc.1 with hm | hm
    · rw [List.Nodup.mem_erase_iff hnd] at hm
      exact hm.1 rfl
    · exact hOD ((List.erase_sublist _ _).subset hm)
  | cons w rest'' =>
    have hnbw : NBW s (a :: y :: w :: rest'') := nbw_of_chain'_nodup hpc' hpnd
    have hadjc : ∀ z, (a :: y :: w :: rest'').getLast? = some z → Adjacent s z a := by
      intro z hz
      rw [hpl] at hz
      injection hz with hz
      rw [← hz]
      exact Or.inr hmem
    have hsep2 : ∀ z w' t, (a :: y :: w :: rest'' : List Nat) = t ++ [z, w'] → z ≠ a := by
      intro z w' t heq hza
      rw [hza] at heq
      cases t with
      | nil =>
        have hlen : (a :: y :: w :: rest'').length = ([a, w'] : List Nat).length := by
          rw [heq, List.nil_append]
        simp only [List.length_cons, List.length_nil] at hlen
        omega
      | cons t0 t' =>
        have hat0 : a = t0 := by
          have hh := congrArg List.head? heq
          simpa using hh
        have hnd2 := hpnd
        rw [heq, List.nodup_append] at hnd2
        exact hnd2.2.2
          (show a ∈ t0 :: t' by rw [hat0]; exact List.mem_cons_self _ _)
          (List.mem_cons_self _ _)
    have hq : NBW s ((a :: y :: w :: rest'') ++ [a]) := nbw_snoc hnbw hadjc hsep2
    have hqnd := hF _ hq
    rw [List.nodup_append] at hqnd
    exact hqnd.2.2 (List.mem_cons_self _ _) (List.mem_cons_self _ _)

/-! ## Termination, soundness and completeness of the search -/

/-- Vertices occurring in the store. -/
def nodes (s : List (Nat × Nat)) : List Nat :=
  s.map Prod.fst ++ s.map Prod.snd

lemma mem_nodes_of_adjacent {s : List (Nat × Nat)} {x y : Nat}
    (h : Adjacent s x y) : x ∈ nodes s ∧ y ∈ nodes s := by
  rcases h with h | h
  · exact ⟨List.mem_append_left _ (List.mem_map.mpr ⟨(x, y), h, rfl⟩),
      List.mem_append_right _ (List.mem_map.mpr ⟨(x, y), h, rfl⟩)⟩
  · exact ⟨List.mem_append_right _ (List.mem_map.mpr ⟨(y, x), h, rfl⟩),
      List.mem_append_left _ (List.mem_map.mpr ⟨(y, x), h, rfl⟩)⟩

lemma nbw_mem_nodes {s : List (Nat × Nat)} :
    ∀ {l : List Nat}, NBW s l → 2 ≤ l.length → ∀ v ∈ l, v ∈ nodes s
  | x :: y :: t, h, _, v, hv => by
    rw [nbw_cons_cons] at h
    rcases List.mem_cons.mp hv with rfl | hv'
    · exact (mem_nodes_of_adjacent h.1).1
    · cases t with
      | nil =>
        rw [List.mem_singleton] at hv'
        exact hv' ▸ (mem_nodes_of_adjacent h.1).2
      | cons w t' =>
        exact nbw_mem_nodes h.2.2 (by simp) v hv'

/-- On a forest, non-backtracking walks are no longer than the vertex
count, hence than twice the store size plus one. -/
lemma nbw_length_le {s : List (Nat × Nat)} (hF : Forest s) {l : List Nat}
    (h : NBW s l) : l.length ≤ 2 * s.length + 1 := by
  rcases Nat.lt_or_ge l.length 2 with hlen | hlen
  · omega
  · have hsub : l ⊆ nodes s := fun v hv => nbw_mem_nodes h hlen v hv
    have hnd : l.Nodup := hF l h
    have := (hnd.subperm hsub).length_le
    have hnodes : (nodes s).length = 2 * s.length := by
      simp [nodes]
      omega
    omega

lemma deep_search_succ (s : List (Nat × Nat)) (casc : Bool) (fuel : Nat)
    (x y : Nat) (prev : Option Nat) :
    deep_search s casc (fuel + 1) x y prev =
      if pexists s x y || pexists s y x then some true
      else if !casc then some false
      else
        match search_loop (fun n => deep_search s casc fuel n y (some x))
            (ds_allowed prev y) (requirements s x) with
        | none => none
        | some true => some true
        | some false =>
          search_loop (fun n => deep_search s casc fuel n y (some x))
            (ds_allowed prev y) (dependents s x) := rfl

lemma search_loop_eq_some_true {f : Nat → Option Bool} {allowed : Nat → Bool} :
    ∀ {l : List Nat}, search_loop f allowed l = some true →
      ∃ n ∈ l, allowed n = true ∧ f n = some true := by
  intro l
  induction l with
  | nil => intro h; simp [search_loop] at h
  | cons n t ih =>
    intro h
    rw [search_loop] at h
    by_cases ha : allowed n = true
    · rw [if_pos ha] at h
      rcases hfn : f n with _ | b
      · rw [hfn] at h; exact absurd h (by simp)
      · cases b with
        | true => exact ⟨n, List.mem_cons_self _ _, ha, hfn⟩
        | false =>
          rw [hfn] at h
          obtain ⟨m, hm, hma, hmf⟩ := ih h
          exact ⟨m, List.mem_cons_of_mem _ hm, hma, hmf⟩
    · rw [if_neg ha] at h
      obtain ⟨m, hm, hma, hmf⟩ := ih h
      exact ⟨m, List.mem_cons_of_mem _ hm, hma, hmf⟩

lemma search_loop_eq_some_false {f : Nat → Option Bool} {allowed : Nat → Bool} :
    ∀ {l : List Nat}, search_loop f allowed l = some false →
      ∀ n ∈ l, allowed n = true → f n = some false := by
  intro l
  induction l with
  | nil => intro _ n hn; simp at hn
  | cons m t ih =>
    intro h n hn ha
    rw [search_loop] at h
    by_cases hma : allowed m = true
    · rw [if_pos hma] at h
      rcases hfm : f m with _ | b
      · rw [hfm] at h; exact absurd h (by simp)
      · cases b with
        | true => rw [hfm] at h; exact absurd h (by simp)
        | false =>
          rw [hfm] at h
          rcases List.mem_cons.mp hn with rfl | hn'
          · exact hfm
          · exact ih h n hn' ha
    · rw [if_neg hma] at h
      rcases List.mem_cons.mp hn with rfl | hn'
      · exact absurd ha hma
      · exact ih h n hn' ha

lemma search_loop_ne_none {f : Nat → Option Bool} {allowed : Nat → Bool} :
    ∀ {l : List Nat}, (∀ n ∈ l, allowed n = true → f n ≠ none) →
      search_loop f allowed l ≠ none := by
  intro l
  induction l with
  | nil => intro _; simp [search_loop]
  | cons m t ih =>
    intro h
    rw [search_loop]
    by_cases hma : allowed m = true
    · rw [if_pos hma]
      rcases hfm : f m with _ | b
      · exact absurd hfm (h m (List.mem_cons_self _ _) hma)
      · cases b with
        | true => simp
        | false => exact ih fun n hn ha => h n (List.mem_cons_of_mem _ hn) ha
    · rw [if_neg hma]
      exact ih fun n hn ha => h n (List.mem_cons_of_mem _ hn) ha

/-- Soundness: a positive `deep_search` answer exhibits connectivity. -/
lemma deep_search_sound {s : List (Nat × Nat)} {casc : Bool} :
    ∀ {fuel : Nat} {x y : Nat} {prev : Option Nat},
      deep_search s casc fuel x y prev = some true → Conn s x y := by
  intro fuel
  induction fuel with
  | zero => intro x y prev h; exact absurd h (by simp [deep_search])
  | succ fuel ih =>
    intro x y prev h
    rw [deep_search_succ] at h
    by_cases hd : (pexists s x y || pexists s y x) = true
    · rcases Bool.or_eq_true_iff.mp hd with h1 | h1
      · exact Relation.ReflTransGen.single (Or.inl (pexists_iff.mp h1))
      · exact Relation.ReflTransGen.single (Or.inr (pexists_iff.mp h1))
    · rw [if_neg hd] at h
      by_cases hc : casc
      · subst hc
        simp only [Bool.not_true, Bool.false_eq_true, if_false] at h
        have hstep : ∀ n, Adjacent s x n →
            deep_search s true fuel n y (some x) = some true → Conn s x y :=
          fun n hadj hds =>
            Relation.ReflTransGen.head hadj (ih hds)
        rcases hl1 : search_loop (fun n => deep_search s true fuel n y (some x))
            (ds_allowed prev y) (requirements s x) with _ | b1
        · rw [hl1] at h; exact absurd h (by simp)
        · cases b1 with
          | true =>
            obtain ⟨n, hn, _, hfn⟩ := search_loop_eq_some_true hl1
            exact hstep n (Or.inl (mem_requirements.mp hn)) hfn
          | false =>
            rw [hl1] at h
            obtain ⟨n, hn, _, hfn⟩ := search_loop_eq_some_true h
            exact hstep n (Or.inr (mem_dependents.mp hn)) hfn
      · rw [Bool.not_eq_true] at hc
        subst hc
        simp at h

lemma mem_of_getLast? {l : List Nat} {y : Nat} (h : l.getLast? = some y) :
    y ∈ l := by
  obtain ⟨hne, heq⟩ := List.mem_getLast?_eq_getLast
    (show y ∈ l.getLast? by rw [Option.mem_def, h])
  rw [heq]
  exact List.getLast_mem hne

/-- Termination: on a forest the search cannot exhaust its fuel, as the
recursion follows a non-backtracking walk, which cannot revisit vertices.
`ch` is the chain of active predecessors, most recent first (empty at the
top-level call, whence `prev = ch.head?`). -/
lemma deep_search_ne_none {s : List (Nat × Nat)} (hF : Forest s) (casc : Bool) :
    ∀ (fuel : Nat) (x : Nat) (ch : List Nat), NBW s (x :: ch) →
      2 * s.length + 2 ≤ ch.length + fuel →
      ∀ y, deep_search s casc fuel x y ch.head? ≠ none := by
  intro fuel
  induction fuel with
  | zero =>
    intro x ch hch hb y
    exfalso
    have := nbw_length_le hF hch
    simp only [List.length_cons] at this
    omega
  | succ fuel ih =>
    intro x ch hch hb y
    rw [deep_search_succ]
    by_cases hd : (pexists s x y || pexists s y x) = true
    · rw [if_pos hd]
      simp
    · rw [if_neg hd]
      by_cases hc : casc = true
      · rw [hc]
        simp only [Bool.not_true, Bool.false_eq_true, if_false]
        have hrec : ∀ n, Adjacent s n x → ds_allowed ch.head? y n = true →
            deep_search s true fuel n y (some x) ≠ none := by
          intro n hadj ha
          have hch' : NBW s (n :: x :: ch) := by
            rw [nbw_cons_cons]
            refine ⟨hadj, ?_, hch⟩
            intro z hz hnz
            cases hpr : ch.head? with
            | none => rw [hpr] at hz; exact absurd hz (by simp)
            | some q =>
              rw [hpr] at hz
              injection hz with hz
              rw [hpr] at ha
              simp only [ds_allowed, Bool.not_eq_true', Bool.or_eq_false_iff,
                beq_eq_false_iff_ne] at ha
              exact ha.1 (by rw [hnz, hz])
          have := ih n (x :: ch) hch' (by simp only [List.length_cons]; omega) y
          rw [hc] at this
          simpa using this
        have hreq : search_loop (fun n => deep_search s true fuel n y (some x))
            (ds_allowed ch.head? y) (requirements s x) ≠ none := by
          apply search_loop_ne_none
          intro n hn ha
          exact hrec n (Or.inr (mem_requirements.mp hn)) ha
        have hdep : search_loop (fun n => deep_search s true fuel n y (some x))
            (ds_allowed ch.head? y) (dependents s x) ≠ none := by
          apply search_loop_ne_none
          intro n hn ha
          exact hrec n (Or.inl (mem_dependents.mp hn)) ha
        rcases hl1 : search_loop (fun n => deep_search s true fuel n y (some x))
            (ds_allowed ch.head? y) (requirements s x) with _ | b1
        · exact absurd hl1 hreq
        · cases b1 with
          | true => simp
          | false => exact hdep
      · rw [Bool.not_eq_true] at hc
        rw [hc]
        simp

/-- Completeness on forests: a duplicate-free walk from `x` to `y` whose
first hop avoids the excluded predecessor forbids a negative answer. -/
lemma deep_search_ne_some_false {s : List (Nat × Nat)} :
    ∀ (rest : List Nat) (fuel x y : Nat) (prev : Option Nat),
      (x :: rest).Chain' (Adjacent s) → (x :: rest).Nodup →
      (x :: rest).getLast? = some y → x ≠ y →
      (∀ q, prev = some q → rest.head? ≠ some q) →
      rest.length < fuel →
      deep_search s true fuel x y prev ≠ some false := by
  intro rest
  induction rest with
  | nil =>
    intro fuel x y prev _ _ hl hxy _ _
    exact absurd (by simpa using hl) hxy
  | cons n rest' ih =>
    intro fuel x y prev hc hnd hl hxy hsep hfuel
    cases fuel with
    | zero => exact absurd hfuel (by simp)
    | succ f =>
    intro hds
    rw [deep_search_succ] at hds
    by_cases hd : (pexists s x y || pexists s y x) = true
    · rw [if_pos hd] at hds
      exact absurd hds (by simp)
    · rw [if_neg hd] at hds
      simp only [Bool.not_true, Bool.false_eq_true, if_false] at hds
      have hadj_xn : Adjacent s x n := (List.chain'_cons.mp hc).1
      cases rest' with
      | nil =>
        have hny : n = y := by simpa using hl
        subst hny
        refine hd (Bool.or_eq_true_iff.mpr ?_)
        rcases hadj_xn with hm | hm
        · exact Or.inl (pexists_iff.mpr hm)
        · exact Or.inr (pexists_iff.mpr hm)
      | cons m rest'' =>
        have hymem : y ∈ m :: rest'' := by
          rw [List.getLast?_cons_cons, List.getLast?_cons_cons] at hl
          exact mem_of_getLast? hl
        have hny : n ≠ y := by
          intro hny
          have : n ∈ m :: rest'' := hny ▸ hymem
          have hnd' := List.nodup_cons.mp (List.Nodup.of_cons hnd)
          exact hnd'.1 this
        have hnprev : ds_allowed prev y n = true := by
          cases prev with
          | none => rfl
          | some q =>
            have hnq : n ≠ q := by
              intro h
              exact hsep q rfl (by rw [h]; rfl)
            simp only [ds_allowed, Bool.not_eq_true', Bool.or_eq_false_iff,
              beq_eq_false_iff_ne]
            exact ⟨hnq, hny⟩
        have hloop : deep_search s true f n y (some x) = some false := by
          rcases hl1 : search_loop (fun k => deep_search s true f k y (some x))
              (ds_allowed prev y) (requirements s x) with _ | b1
          · rw [hl1] at hds
            exact absurd hds (by simp)
          · cases b1 with
            | true =>
              rw [hl1] at hds
              exact absurd hds (by simp)
            | false =>
              rw [hl1] at hds
              rcases hadj_xn with hm | hm
              · exact search_loop_eq_some_false hl1 n (mem_requirements.mpr hm) hnprev
              · exact search_loop_eq_some_false hds n (mem_dependents.mpr hm) hnprev
        refine ih f n y (some x) (List.chain'_cons.mp hc).2 (List.Nodup.of_cons hnd)
          (by rw [List.getLast?_cons_cons] at hl; exact hl) hny ?_ ?_ hloop
        · intro q hq hhead
          injection hq with hq
          rw [← hq] at hhead
          rw [List.head?_cons] at hhead
          injection hhead with hmx
          have hxmem : x ∉ n :: m :: rest'' := (List.nodup_cons.mp hnd).1
          exact hxmem (by rw [hmx]; exact List.mem_cons_of_mem _ (List.mem_cons_self _ _))
        · simp only [List.length_cons] at hfuel ⊢
          omega

/-- Without cascading, the search is the direct two-direction membership
test. -/
lemma deep_search_nocasc (s : List (Nat × Nat)) (fuel x y : Nat)
    (prev : Option Nat) :
    deep_search s false (fuel + 1) x y prev =
      some (pexists s x y || pexists s y x) := by
  rw [deep_search_succ]
  by_cases hd : (pexists s x y || pexists s y x) = true
  · rw [if_pos hd, hd]
  · rw [if_neg hd]
    rw [Bool.not_eq_true] at hd
    rw [hd]
    rfl

/-- A stored direct relation, in either direction, makes the search answer
positively at once. -/
lemma deep_search_direct_true {s : List (Nat × Nat)} {casc : Bool}
    {fuel x y : Nat} {prev : Option Nat}
    (h : (x, y) ∈ s ∨ (y, x) ∈ s) :
    deep_search s casc (fuel + 1) x y prev = some true := by
  rw [deep_search_succ, if_pos]
  rcases h with h | h
  · exact Bool.or_eq_true_iff.mpr (Or.inl (pexists_iff.mpr h))
  · exact Bool.or_eq_true_iff.mpr (Or.inr (pexists_iff.mpr h))

lemma in_conflict_nocasc (s : List (Nat × Nat)) (fuel a b : Nat) :
    in_conflict s false (fuel + 1) a b =
      some (pexists s a b || pexists s b a) := by
  unfold in_conflict
  rw [deep_search_nocasc, deep_search_nocasc]
  cases h : (pexists s a b || pexists s b a) with
  | true => rfl
  | false =>
    show some (pexists s b a || pexists s a b) = some false
    rw [Bool.or_comm, h]

/-- A negative `in_conflict` answer implies that no direct entry is stored
in either direction. -/
lemma in_conflict_some_false_notmem {s : List (Nat × Nat)} {casc : Bool}
    {fuel a b : Nat}
    (h : in_conflict s casc (fuel + 1) a b = some false) :
    (a, b) ∉ s ∧ (b, a) ∉ s := by
  constructor
  · intro hm
    have := @deep_search_direct_true s casc fuel a b none (Or.inl hm)
    unfold in_conflict at h
    rw [this] at h
    exact absurd h (by simp)
  · intro hm
    have := @deep_search_direct_true s casc fuel a b none (Or.inr hm)
    unfold in_conflict at h
    rw [this] at h
    exact absurd h (by simp)

/-- On a forest, `in_conflict` terminates (with either answer) whenever it
gets the default amount of fuel. -/
lemma in_conflict_ne_none_casc {s : List (Nat × Nat)} (hF : Forest s)
    {fuel : Nat} (hfuel : 2 * s.length + 2 ≤ fuel) (a b : Nat) :
    in_conflict s true fuel a b ≠ none := by
  unfold in_conflict
  have h1 : deep_search s true fuel a b none ≠ none := by
    have := deep_search_ne_none hF true fuel a [] (nbw_single s a)
      (by simpa using hfuel) b
    simpa using this
  have h2 : deep_search s true fuel b a none ≠ none := by
    have := deep_search_ne_none hF true fuel b [] (nbw_single s b)
      (by simpa using hfuel) a
    simpa using this
  rcases hd1 : deep_search s true fuel a b none with _ | b1
  · exact absurd hd1 h1
  · cases b1 with
    | true => simp
    | false => exact h2

/-- On a forest, `in_conflict` answers positively between distinct
connected nodes (completeness of the two-sided search). -/
lemma in_conflict_true_casc {s : List (Nat × Nat)} (hF : Forest s)
    {a b : Nat} (hab : a ≠ b) (hconn : Conn s a b) {fuel : Nat}
    (hfuel : 2 * s.length + 2 ≤ fuel) :
    in_conflict s true fuel a b = some true := by
  obtain ⟨p, hpc, hpnd, hph, hpl⟩ := conn_to_path hconn
  obtain ⟨rest, rfl⟩ : ∃ rest, p = a :: rest := by
    cases p with
    | nil => simp at hph
    | cons x rest =>
      rw [List.head?_cons] at hph
      injection hph with h
      exact ⟨rest, by rw [h]⟩
  have hnbw : NBW s (a :: rest) := nbw_of_chain'_nodup hpc hpnd
  have hlen := nbw_length_le hF hnbw
  have hne_false : deep_search s true fuel a b none ≠ some false :=
    deep_search_ne_some_false rest fuel a b none hpc hpnd hpl hab
      (fun q hq => by simp at hq)
      (by simp only [List.length_cons] at hlen; omega)
  have hne_none : deep_search s true fuel a b none ≠ none := by
    have := deep_search_ne_none hF true fuel a [] (nbw_single s a)
      (by simpa using hfuel) b
    simpa using this
  rcases hd : deep_search s true fuel a b none with _ | b1
  · exact absurd hd hne_none
  · cases b1 with
    | true =>
      unfold in_conflict
      rw [hd]
    | false => exact absurd hd hne_false

/-- Soundness of `in_conflict`: a positive answer exhibits connectivity. -/
lemma in_conflict_some_true_conn {s : List (Nat × Nat)} {casc : Bool}
    {fuel a b : Nat} (h : in_conflict s casc fuel a b = some true) :
    Conn s a b := by
  unfold in_conflict at h
  rcases hd : deep_search s casc fuel a b none with _ | b1 <;> rw [hd] at h
  · exact absurd h (by simp)
  · cases b1 with
    | true => exact deep_search_sound hd
    | false => exact conn_symm (deep_search_sound h)

lemma all_conflicts_aux_succ (s : List (Nat × Nat)) (casc : Bool)
    (fuel : Nat) (x : Nat) (prev : Option Nat) :
    all_conflicts_aux s casc (fuel + 1) x prev =
      match collect_loop (fun n => all_conflicts_aux s casc fuel n (some x))
          (ac_allowed prev) casc (requirements s x) with
      | none => none
      | some r1 =>
        match collect_loop (fun n => all_conflicts_aux s casc fuel n (some x))
            (ac_allowed prev) casc (dependents s x) with
        | none => none
        | some r2 => some (r1 ++ r2) := rfl

lemma collect_loop_ne_none {f : Nat → Option (List Nat)}
    {allowed : Nat → Bool} :
    ∀ {l : List Nat}, (∀ n ∈ l, allowed n = true → f n ≠ none) →
      collect_loop f allowed true l ≠ none := by
  intro l
  induction l with
  | nil => intro _; simp [collect_loop]
  | cons m t ih =>
    intro h
    rw [collect_loop]
    by_cases hma : allowed m = true
    · rw [if_pos hma, if_pos rfl]
      rcases hfm : f m with _ | res
      · exact absurd hfm (h m (List.mem_cons_self _ _) hma)
      · rcases hrec : collect_loop f allowed true t with _ | rest
        · exact absurd hrec (ih fun n hn ha => h n (List.mem_cons_of_mem _ hn) ha)
        · simp
    · rw [if_neg hma]
      exact ih fun n hn ha => h n (List.mem_cons_of_mem _ hn) ha

/-- Termination of the recursive `all_conflicts` helper on forests. -/
lemma all_conflicts_aux_ne_none {s : List (Nat × Nat)} (hF : Forest s) :
    ∀ (fuel : Nat) (x : Nat) (ch : List Nat), NBW s (x :: ch) →
      2 * s.length + 2 ≤ ch.length + fuel →
      all_conflicts_aux s true fuel x ch.head? ≠ none := by
  intro fuel
  induction fuel with
  | zero =>
    intro x ch hch hb
    exfalso
    have := nbw_length_le hF hch
    simp only [List.length_cons] at this
    omega
  | succ fuel ih =>
    intro x ch hch hb
    rw [all_conflicts_aux_succ]
    have hrec : ∀ n, Adjacent s n x → ac_allowed ch.head? n = true →
        all_conflicts_aux s true fuel n (some x) ≠ none := by
      intro n hadj ha
      have hch' : NBW s (n :: x :: ch) := by
        rw [nbw_cons_cons]
        refine ⟨hadj, ?_, hch⟩
        intro z hz hnz
        cases hpr : ch.head? with
        | none => rw [hpr] at hz; exact absurd hz (by simp)
        | some q =>
          rw [hpr] at hz
          injection hz with hz
          rw [hpr] at ha
          simp only [ac_allowed, Bool.not_eq_true', beq_eq_false_iff_ne] at ha
          exact ha (by rw [hnz, hz])
      have := ih n (x :: ch) hch' (by simp only [List.length_cons]; omega)
      simpa using this
    have hreq : collect_loop (fun n => all_conflicts_aux s true fuel n (some x))
        (ac_allowed ch.head?) true (requirements s x) ≠ none :=
      collect_loop_ne_none fun n hn ha =>
        hrec n (Or.inr (mem_requirements.mp hn)) ha
    have hdep : collect_loop (fun n => all_conflicts_aux s true fuel n (some x))
        (ac_allowed ch.head?) true (dependents s x) ≠ none :=
      collect_loop_ne_none fun n hn ha =>
        hrec n (Or.inl (mem_dependents.mp hn)) ha
    rcases hl1 : collect_loop (fun n => all_conflicts_aux s true fuel n (some x))
        (ac_allowed ch.head?) true (requirements s x) with _ | r1
    · exact absurd hl1 hreq
    · rcases hl2 : collect_loop (fun n => all_conflicts_aux s true fuel n (some x))
        (ac_allowed ch.head?) true (dependents s x) with _ | r2
      · exact absurd hl2 hdep
      · simp [hl1, hl2]

/-! ## States reachable through the public API -/

/-- States reachable from the empty container through the public mutation
API (`add`, `remove` in both arities, `clear`, `merge`, `set`), each step
subject to the success guard of the corresponding assertion. -/
inductive Reach (casc : Bool) : List (Nat × Nat) → Prop
  | empty : Reach casc []
  | add_step {s : List (Nat × Nat)} {a b : Nat} :
      Reach casc s → addOK s casc a b → Reach casc (add s a b)
  | remove_pair_step {s : List (Nat × Nat)} {a b : Nat} :
      Reach casc s → removeOK s a b → Reach casc (remove_pair s a b)
  | remove_all_step {s : List (Nat × Nat)} {a : Nat} :
      Reach casc s → in_conflict_obj s a = true → Reach casc (remove_all s a)
  | clear_step {s : List (Nat × Nat)} :
      Reach casc s → Reach casc []
  | merge_step {s l s' : List (Nat × Nat)} :
      Reach casc s → mergeO casc s l = some s' → Reach casc s'
  | set_step {s l s' : List (Nat × Nat)} :
      Reach casc s → setO casc s l = some s' → Reach casc s'

/-- The storage invariant: no duplicate entries, no reflexive entry, and
for each unordered pair at most one stored direction. -/
def Inv (s : List (Nat × Nat)) : Prop :=
  s.Nodup ∧ (∀ p ∈ s, p.1 ≠ p.2) ∧ ∀ a b : Nat, (a, b) ∈ s → (b, a) ∉ s

lemma inv_nil : Inv [] := by
  refine ⟨List.nodup_nil, ?_, ?_⟩ <;> simp

lemma inv_sublist {s s' : List (Nat × Nat)} (h : s'.Sublist s) (hI : Inv s) :
    Inv s' :=
  ⟨hI.1.sublist h, fun p hp => hI.2.1 p (h.subset hp),
    fun a b hab hba => hI.2.2 a b (h.subset hab) (h.subset hba)⟩

lemma inv_add {casc : Bool} {s : List (Nat × Nat)} {a b : Nat} (hI : Inv s)
    (hOK : addOK s casc a b) : Inv (add s a b) := by
  obtain ⟨hab, hic⟩ := hOK
  have hnm : (a, b) ∉ s ∧ (b, a) ∉ s :=
    @in_conflict_some_false_notmem s casc (2 * s.length + 1) a b hic
  refine ⟨?_, ?_, ?_⟩
  · rw [add, List.nodup_append]
    exact ⟨hI.1, List.nodup_singleton _, by
      intro p hp hp'
      rw [List.mem_singleton] at hp'
      exact hnm.1 (hp' ▸ hp)⟩
  · intro p hp
    rcases List.mem_append.mp hp with hp' | hp'
    · exact hI.2.1 p hp'
    · rw [List.mem_singleton] at hp'
      rw [hp']
      exact hab
  · intro x y hxy hyx
    rcases List.mem_append.mp hxy with h1 | h1 <;>
      rcases List.mem_append.mp hyx with h2 | h2
    · exact hI.2.2 x y h1 h2
    · rw [List.mem_singleton] at h2
      injection h2 with e1 e2
      rw [← e1, ← e2] at hnm
      exact hnm.2 h1
    · rw [List.mem_singleton] at h1
      injection h1 with e1 e2
      rw [← e1, ← e2] at hnm
      exact hnm.2 h2
    · rw [List.mem_singleton] at h1 h2
      injection h1 with e1 e2
      injection h2 with e3 e4
      exact hab (by rw [← e1, ← e4])

lemma mergeO_cons (casc : Bool) (s : List (Nat × Nat)) (a b : Nat)
    (t : List (Nat × Nat)) :
    mergeO casc s ((a, b) :: t) =
      if a = b then none
      else
        match in_conflict s casc (default_fuel s) a b with
        | some false => mergeO casc (add s a b) t
        | _ => none := rfl

lemma inv_mergeO {casc : Bool} :
    ∀ {l s s' : List (Nat × Nat)}, Inv s → mergeO casc s l = some s' →
      Inv s' := by
  intro l
  induction l with
  | nil =>
    intro s s' hI h
    rw [mergeO] at h
    injection h with h
    rw [← h]
    exact hI
  | cons p t ih =>
    intro s s' hI h
    obtain ⟨a, b⟩ := p
    rw [mergeO_cons] at h
    by_cases hab : a = b
    · rw [if_pos hab] at h
      exact absurd h (by simp)
    · rw [if_neg hab] at h
      rcases hic : in_conflict s casc (default_fuel s) a b with _ | bic
      · rw [hic] at h
        exact absurd h (by simp)
      · cases bic with
        | true =>
          rw [hic] at h
          exact absurd h (by simp)
        | false =>
          rw [hic] at h
          exact ih (inv_add hI ⟨hab, hic⟩) h

/-- Claim C2's invariant holds in every reachable state. -/
lemma reach_inv {casc : Bool} {s : List (Nat × Nat)} (h : Reach casc s) :
    Inv s := by
  induction h with
  | empty => exact inv_nil
  | add_step _ hOK ih => exact inv_add ih hOK
  | remove_pair_step _ _ ih =>
    exact inv_sublist ((List.erase_sublist _ _).trans (List.erase_sublist _ _)) ih
  | remove_all_step _ _ ih =>
    exact inv_sublist (List.filter_sublist _) ih
  | clear_step _ _ => exact inv_nil
  | merge_step _ hm ih => exact inv_mergeO ih hm
  | set_step _ hm _ => exact inv_mergeO inv_nil hm

lemma adjacent_append_single {s : List (Nat × Nat)} {a b x y : Nat} :
    Adjacent (s ++ [(a, b)]) x y ↔ Adjacent ((a, b) :: s) x y := by
  simp only [Adjacent, List.mem_append, List.mem_singleton, List.mem_cons]
  tauto

lemma forest_add {s : List (Nat × Nat)} {a b : Nat} (hF : Forest s)
    (hOK : addOK s true a b) : Forest (add s a b) := by
  obtain ⟨hab, hic⟩ := hOK
  have hnc : ¬ Conn s a b := by
    intro hconn
    have htrue := @in_conflict_true_casc s hF a b hab hconn (default_fuel s)
      (Nat.le_refl _)
    rw [htrue] at hic
    exact absurd hic (by simp)
  exact forest_of_adj_imp (fun x y h => adjacent_append_single.mp h)
    (forest_insert hF hab hnc)

lemma forest_mergeO :
    ∀ {l s s' : List (Nat × Nat)}, Forest s → mergeO true s l = some s' →
      Forest s' := by
  intro l
  induction l with
  | nil =>
    intro s s' hF h
    rw [mergeO] at h
    injection h with h
    rw [← h]
    exact hF
  | cons p t ih =>
    intro s s' hF h
    obtain ⟨a, b⟩ := p
    rw [mergeO_cons] at h
    by_cases hab : a = b
    · rw [if_pos hab] at h
      exact absurd h (by simp)
    · rw [if_neg hab] at h
      rcases hic : in_conflict s true (default_fuel s) a b with _ | bic
      · rw [hic] at h
        exact absurd h (by simp)
      · cases bic with
        | true =>
          rw [hic] at h
          exact absurd h (by simp)
        | false =>
          rw [hic] at h
          exact ih (forest_add hF ⟨hab, hic⟩) h

/-- In cascading mode every reachable store is a forest: `add` only ever
joins two previously disconnected components. -/
lemma reach_forest {s : List (Nat × Nat)} (h : Reach true s) : Forest s := by
  induction h with
  | empty => exact forest_nil
  | add_step _ hOK ih => exact forest_add ih hOK
  | remove_pair_step _ _ ih =>
    exact forest_mono
      (fun p hp => ((List.erase_sublist _ _).trans (List.erase_sublist _ _)).subset hp) ih
  | remove_all_step _ _ ih =>
    exact forest_mono (fun p hp => (List.filter_sublist _).subset hp) ih
  | clear_step _ _ => exact forest_nil
  | merge_step _ hm ih => exact forest_mergeO ih hm
  | set_step _ hm _ => exact forest_mergeO forest_nil hm

lemma in_conflict_or {s : List (Nat × Nat)} {casc : Bool} {fuel a b : Nat}
    {r1 r2 : Bool}
    (h1 : deep_search s casc fuel a b none = some r1)
    (h2 : deep_search s casc fuel b a none = some r2) :
    in_conflict s casc fuel a b = some (r1 || r2) := by
  unfold in_conflict
  rw [h1]
  cases r1 with
  | true => rfl
  | false =>
    rw [h2]
    cases r2 <;> rfl

lemma in_conflict_direct_true {s : List (Nat × Nat)} {casc : Bool}
    {fuel a b : Nat} (h : (a, b) ∈ s ∨ (b, a) ∈ s) :
    in_conflict s casc (fuel + 1) a b = some true := by
  unfold in_conflict
  rw [deep_search_direct_true h]

/-! ## Claim theorems about reachable states -/

/-- Claim C2: after every public operation (i.e. in every reachable state),
no stored directed entry has equal endpoints, and for any two distinct
nodes at most one of the directed entries (a→b), (b→a) is stored. -/
theorem C2_storage_invariant {casc : Bool} {s : List (Nat × Nat)}
    (h : Reach casc s) :
    (∀ p ∈ s, p.1 ≠ p.2) ∧ ∀ a b : Nat, (a, b) ∈ s → (b, a) ∉ s :=
  ⟨(reach_inv h).2.1, (reach_inv h).2.2⟩

/-- Witness for C2 at the reachable one-relation state. -/
theorem C2_storage_invariant_witness :
    (∀ p ∈ add ([] : List (Nat × Nat)) 0 1, p.1 ≠ p.2)
    ∧ ∀ a b : Nat, (a, b) ∈ add ([] : List (Nat × Nat)) 0 1 →
        (b, a) ∉ add ([] : List (Nat × Nat)) 0 1 :=
  @C2_storage_invariant true _ (Reach.add_step Reach.empty (by decide))

/-- Claim C9: on every reachable state the traversals terminate — in
cascading mode the store stays a forest (so the predecessor-exclusion
recursion is depth-bounded and the default fuel suffices), and with
cascading off no recursion occurs; `deep_search`-based `in_conflict` and
the recursive `all_conflicts` never exhaust the default fuel. -/
theorem C9_traversals_terminate {casc : Bool} {s : List (Nat × Nat)}
    (h : Reach casc s) :
    (casc = true → Forest s)
    ∧ (∀ a b : Nat, in_conflict s casc (default_fuel s) a b ≠ none)
    ∧ ∀ a : Nat, all_conflicts s casc (default_fuel s) a ≠ none := by
  have hFor : casc = true → Forest s := fun hc => reach_forest (hc ▸ h)
  refine ⟨hFor, ?_, ?_⟩
  · intro a b
    cases casc with
    | false =>
      rw [show default_fuel s = 2 * s.length + 1 + 1 from rfl, in_conflict_nocasc]
      simp
    | true => exact in_conflict_ne_none_casc (hFor rfl) (Nat.le_refl _) a b
  · intro a
    cases casc with
    | false =>
      unfold all_conflicts
      rw [show default_fuel s = 2 * s.length + 1 + 1 from rfl, all_conflicts_aux_nocasc]
      simp
    | true =>
      unfold all_conflicts
      have := all_conflicts_aux_ne_none (hFor rfl) (default_fuel s) a []
        (nbw_single s a) (by simp [default_fuel])
      simpa using this

/-- Witness for C9 at the reachable one-relation cascading state. -/
theorem C9_traversals_terminate_witness :
    (true = true → Forest (add ([] : List (Nat × Nat)) 0 1))
    ∧ (∀ a b : Nat, in_conflict (add ([] : List (Nat × Nat)) 0 1) true
        (default_fuel (add ([] : List (Nat × Nat)) 0 1)) a b ≠ none)
    ∧ ∀ a : Nat, all_conflicts (add ([] : List (Nat × Nat)) 0 1) true
        (default_fuel (add ([] : List (Nat × Nat)) 0 1)) a ≠ none :=
  C9_traversals_terminate (Reach.add_step Reach.empty (by decide))

/-- Claim C3: on every reachable state and for distinct nodes, the pairwise
query is symmetric in its two arguments, in both modes. -/
theorem C3_symmetry {casc : Bool} {s : List (Nat × Nat)} (h : Reach casc s)
    (a b : Nat) (hab : a ≠ b) :
    in_conflict s casc (default_fuel s) a b =
      in_conflict s casc (default_fuel s) b a := by
  cases casc with
  | false =>
    rw [show default_fuel s = 2 * s.length + 1 + 1 from rfl,
      in_conflict_nocasc, in_conflict_nocasc, Bool.or_comm]
  | true =>
    have hF := reach_forest h
    have h1 : deep_search s true (default_fuel s) a b none ≠ none := by
      have := deep_search_ne_none hF true (default_fuel s) a []
        (nbw_single s a) (by simp [default_fuel]) b
      simpa using this
    have h2 : deep_search s true (default_fuel s) b a none ≠ none := by
      have := deep_search_ne_none hF true (default_fuel s) b []
        (nbw_single s b) (by simp [default_fuel]) a
      simpa using this
    obtain ⟨r1, hr1⟩ := Option.ne_none_iff_exists'.mp h1
    obtain ⟨r2, hr2⟩ := Option.ne_none_iff_exists'.mp h2
    rw [in_conflict_or hr1 hr2, in_conflict_or hr2 hr1, Bool.or_comm]

/-- Witness for C3 at the reachable one-relation cascading state. -/
theorem C3_symmetry_witness :
    (0 : Nat) ≠ 2 ∧
      in_conflict (add ([] : List (Nat × Nat)) 0 1) true
        (default_fuel (add ([] : List (Nat × Nat)) 0 1)) 0 2 =
      in_conflict (add ([] : List (Nat × Nat)) 0 1) true
        (default_fuel (add ([] : List (Nat × Nat)) 0 1)) 2 0 :=
  ⟨by decide,
    C3_symmetry (Reach.add_step Reach.empty (by decide)) 0 2 (by decide)⟩

/-- Claim C4: `add(a,b)` fails exactly when `a = b` or the pair is already
in conflict under the instance's mode; after a successful `add(a,b)` both
`add(a,b)` and `add(b,a)` fail, and the new state stores exactly one new
directed pair `a→b` at the end of the store. -/
theorem C4_add_contract {casc : Bool} {s : List (Nat × Nat)}
    (h : Reach casc s) (a b : Nat) :
    (addOK s casc a b ↔
      ¬(a = b ∨ in_conflict s casc (default_fuel s) a b = some true))
    ∧ (addOK s casc a b →
        in_conflict (add s a b) casc (default_fuel (add s a b)) a b = some true
        ∧ in_conflict (add s a b) casc (default_fuel (add s a b)) b a = some true
        ∧ ¬ addOK (add s a b) casc a b
        ∧ ¬ addOK (add s a b) casc b a
        ∧ add s a b = s ++ [(a, b)]) := by
  have hterm : in_conflict s casc (default_fuel s) a b ≠ none := by
    cases casc with
    | false =>
      rw [show default_fuel s = 2 * s.length + 1 + 1 from rfl, in_conflict_nocasc]
      simp
    | true => exact in_conflict_ne_none_casc (reach_forest h) (Nat.le_refl _) a b
  constructor
  · constructor
    · rintro ⟨hab, hic⟩ (rfl | hic')
      · exact hab rfl
      · rw [hic] at hic'
        exact absurd hic' (by simp)
    · intro hn
      push_neg at hn
      obtain ⟨hab, hic⟩ := hn
      refine ⟨hab, ?_⟩
      rcases hv : in_conflict s casc (default_fuel s) a b with _ | bv
      · exact absurd hv hterm
      · cases bv with
        | true => exact absurd hv hic
        | false => rfl
  · intro hOK
    have hmem : (a, b) ∈ add s a b := by
      unfold add
      simp
    have hdf : default_fuel (add s a b) = 2 * (add s a b).length + 1 + 1 := rfl
    have ht1 : in_conflict (add s a b) casc (default_fuel (add s a b)) a b
        = some true := by
      rw [hdf]
      exact in_conflict_direct_true (Or.inl hmem)
    have ht2 : in_conflict (add s a b) casc (default_fuel (add s a b)) b a
        = some true := by
      rw [hdf]
      exact in_conflict_direct_true (Or.inr hmem)
    refine ⟨ht1, ht2, ?_, ?_, rfl⟩
    · rintro ⟨_, hic⟩
      rw [ht1] at hic
      exact absurd hic (by simp)
    · rintro ⟨_, hic⟩
      rw [ht2] at hic
      exact absurd hic (by simp)

/-- Witness for C4 at the reachable one-relation cascading state. -/
theorem C4_add_contract_witness :
    (addOK (add ([] : List (Nat × Nat)) 0 1) true 2 3 ↔
      ¬((2 : Nat) = 3 ∨ in_conflict (add ([] : List (Nat × Nat)) 0 1) true
        (default_fuel (add ([] : List (Nat × Nat)) 0 1)) 2 3 = some true))
    ∧ (addOK (add ([] : List (Nat × Nat)) 0 1) true 2 3 →
        in_conflict (add (add ([] : List (Nat × Nat)) 0 1) 2 3) true
          (default_fuel (add (add ([] : List (Nat × Nat)) 0 1) 2 3)) 2 3 = some true
        ∧ in_conflict (add (add ([] : List (Nat × Nat)) 0 1) 2 3) true
          (default_fuel (add (add ([] : List (Nat × Nat)) 0 1) 2 3)) 3 2 = some true
        ∧ ¬ addOK (add (add ([] : List (Nat × Nat)) 0 1) 2 3) true 2 3
        ∧ ¬ addOK (add (add ([] : List (Nat × Nat)) 0 1) 2 3) true 3 2
        ∧ add (add ([] : List (Nat × Nat)) 0 1) 2 3 =
            add ([] : List (Nat × Nat)) 0 1 ++ [(2, 3)]) :=
  C4_add_contract (Reach.add_step Reach.empty (by decide)) 2 3

/-- Claim C7: `remove(a,b)` fails exactly when neither direction is stored;
on success the new store holds exactly the old entries other than `(a,b)`
and `(b,a)` — a purely direct operation whose state change never consults
the cascading mode. -/
theorem C7_remove_contract {casc : Bool} {s : List (Nat × Nat)}
    (h : Reach casc s) (a b : Nat) :
    (removeOK s a b ↔ ¬((a, b) ∉ s ∧ (b, a) ∉ s))
    ∧ ∀ p : Nat × Nat,
        p ∈ remove_pair s a b ↔ p ∈ s ∧ p ≠ (a, b) ∧ p ≠ (b, a) := by
  have hnd : s.Nodup := (reach_inv h).1
  constructor
  · unfold removeOK
    tauto
  · intro p
    unfold remove_pair
    rw [List.Nodup.mem_erase_iff (hnd.erase _), List.Nodup.mem_erase_iff hnd]
    tauto

/-- Witness for C7 at the reachable one-relation state, removing through
the reversed argument order. -/
theorem C7_remove_contract_witness :
    (removeOK (add ([] : List (Nat × Nat)) 0 1) 1 0 ↔
      ¬((1, 0) ∉ add ([] : List (Nat × Nat)) 0 1
        ∧ (0, 1) ∉ add ([] : List (Nat × Nat)) 0 1))
    ∧ ∀ p : Nat × Nat,
        p ∈ remove_pair (add ([] : List (Nat × Nat)) 0 1) 1 0 ↔
          p ∈ add ([] : List (Nat × Nat)) 0 1 ∧ p ≠ (1, 0) ∧ p ≠ (0, 1) :=
  @C7_remove_contract true _ (Reach.add_step Reach.empty (by decide)) 1 0

/-- Replaying the stored pairs into an empty store succeeds step by step and
reproduces the store: on forests, the prefix already replayed can never
already connect the endpoints of the next pair, because in the full store
that pair is a bridge. -/
lemma mergeO_replay {casc : Bool} {s : List (Nat × Nat)} (hI : Inv s)
    (hFor : casc = true → Forest s) :
    ∀ (t acc : List (Nat × Nat)), acc ++ t = s → mergeO casc acc t = some s := by
  intro t
  induction t with
  | nil =>
    intro acc hacc
    rw [mergeO, ← hacc, List.append_nil]
  | cons p t ih =>
    intro acc hacc
    obtain ⟨a, b⟩ := p
    have hmem : (a, b) ∈ s := by
      rw [← hacc]
      simp
    have hab : a ≠ b := hI.2.1 (a, b) hmem
    have hsubacc : ∀ q, q ∈ acc → q ∈ s := by
      intro q hq
      rw [← hacc]
      exact List.mem_append_left _ hq
    have hnd := hI.1
    have habacc : (a, b) ∉ acc := by
      intro hq
      have hnd' := hnd
      rw [← hacc, List.nodup_append] at hnd'
      exact hnd'.2.2 hq (List.mem_cons_self _ _)
    have hbaacc : (b, a) ∉ acc := fun hq => hI.2.2 a b hmem (hsubacc _ hq)
    have hic : in_conflict acc casc (default_fuel acc) a b = some false := by
      cases casc with
      | false =>
        rw [show default_fuel acc = 2 * acc.length + 1 + 1 from rfl,
          in_conflict_nocasc]
        have h1 : pexists acc a b = false := by
          simp [pexists, habacc]
        have h2 : pexists acc b a = false := by
          simp [pexists, hbaacc]
        rw [h1, h2]
        rfl
      | true =>
        have hFs : Forest s := hFor rfl
        have hFacc : Forest acc := forest_mono hsubacc hFs
        have hne : in_conflict acc true (default_fuel acc) a b ≠ none :=
          in_conflict_ne_none_casc hFacc (Nat.le_refl _) a b
        have hns : in_conflict acc true (default_fuel acc) a b ≠ some true := by
          intro htrue
          have hconn : Conn acc a b := in_conflict_some_true_conn htrue
          have hsube : ∀ q, q ∈ acc → q ∈ s.erase (a, b) := by
            intro q hq
            rw [List.Nodup.mem_erase_iff hnd]
            exact ⟨fun hqe => habacc (hqe ▸ hq), hsubacc _ hq⟩
          have hbr := forest_bridge hFs hnd (hI.2.2 a b hmem) hmem hab
          exact hbr (conn_mono hsube hconn)
        rcases hval : in_conflict acc true (default_fuel acc) a b with _ | bv
        · exact absurd hval hne
        · cases bv with
          | true => exact absurd hval hns
          | false => rfl
    rw [mergeO_cons, if_neg hab, hic]
    exact ih (add acc a b) (by rw [← hacc]; simp [add])

/-- Claim C5: for every reachable state, `set(get())` succeeds (every
replayed `add` passes its assertions) and returns the stored relation list
unchanged. -/
theorem C5_round_trip {casc : Bool} {s : List (Nat × Nat)}
    (h : Reach casc s) : setO casc s (get s) = some s := by
  unfold setO get
  exact mergeO_replay (reach_inv h) (fun hc => reach_forest (hc ▸ h)) s [] rfl

/-- Witness for C5 at a reachable two-relation cascading state. -/
theorem C5_round_trip_witness :
    setO true (add (add ([] : List (Nat × Nat)) 0 1) 1 2)
      (get (add (add ([] : List (Nat × Nat)) 0 1) 1 2)) =
      some (add (add ([] : List (Nat × Nat)) 0 1) 1 2) :=
  C5_round_trip
    (Reach.add_step (Reach.add_step Reach.empty (by decide)) (by decide))

/-- Connectivity over a single-edge store relates only the two endpoints. -/
lemma conn_single {e : Nat × Nat} (he : e.1 ≠ e.2) {x y : Nat}
    (h : Conn [e] x y) :
    x = y ∨ (x = e.1 ∧ y = e.2) ∨ (x = e.2 ∧ y = e.1) := by
  induction h with
  | refl => exact Or.inl rfl
  | @tail p q hxp hpq ih =>
    have hstep : (p = e.1 ∧ q = e.2) ∨ (p = e.2 ∧ q = e.1) := by
      rcases hpq with hm | hm
      · rw [List.mem_singleton] at hm
        exact Or.inl ⟨congrArg Prod.fst hm, congrArg Prod.snd hm⟩
      · rw [List.mem_singleton] at hm
        exact Or.inr ⟨congrArg Prod.snd hm, congrArg Prod.fst hm⟩
    rcases ih with rfl | ⟨hx1, hpe2⟩ | ⟨hx2, hpe1⟩
    · rcases hstep with ⟨hp1, hq2⟩ | ⟨hp2, hq1⟩
      · exact Or.inr (Or.inl ⟨hp1, hq2⟩)
      · exact Or.inr (Or.inr ⟨hp2, hq1⟩)
    · rcases hstep with ⟨hp1, hq2⟩ | ⟨hp2, hq1⟩
      · exact absurd (hp1.symm.trans hpe2) he
      · exact Or.inl (hx1.trans hq1.symm)
    · rcases hstep with ⟨hp1, hq2⟩ | ⟨hp2, hq1⟩
      · exact Or.inl (hx2.trans hq2.symm)
      · exact absurd (hp2.symm.trans hpe1) he.symm

/-- Claim C1: with exactly the relations a–b and b–c stored (in either
orientation each, in either store order) over pairwise distinct nodes and
no direct a–c entry, `in_conflict(a,c)` answers true with cascading enabled
and false with cascading disabled. -/
theorem C1_cascading_monotonicity (a b c : Nat) (hab : a ≠ b) (hbc : b ≠ c)
    (hac : a ≠ c) (e1 e2 : Nat × Nat)
    (h1 : e1 = (a, b) ∨ e1 = (b, a)) (h2 : e2 = (b, c) ∨ e2 = (c, b))
    (s : List (Nat × Nat)) (hs : s = [e1, e2] ∨ s = [e2, e1]) :
    in_conflict s true (default_fuel s) a c = some true
    ∧ in_conflict s false (default_fuel s) a c = some false := by
  have hsub : ∀ p, p ∈ s → p = (a, b) ∨ p = (b, a) ∨ p = (b, c) ∨ p = (c, b) := by
    intro p hp
    rcases hs with rfl | rfl <;> rcases h1 with rfl | rfl <;>
      rcases h2 with rfl | rfl <;> simp at hp <;> tauto
  have he1 : e1 ∈ s := by
    rcases hs with rfl | rfl <;> simp
  have he2 : e2 ∈ s := by
    rcases hs with rfl | rfl <;> simp
  have hadj_ab : Adjacent s a b := by
    rcases h1 with rfl | rfl
    · exact Or.inl he1
    · exact Or.inr he1
  have hadj_bc : Adjacent s b c := by
    rcases h2 with rfl | rfl
    · exact Or.inl he2
    · exact Or.inr he2
  have hconn : Conn s a c :=
    Relation.ReflTransGen.head hadj_ab (Relation.ReflTransGen.single hadj_bc)
  have hF2 : Forest [(b, c)] :=
    forest_insert forest_nil hbc fun hcn => hbc (conn_empty hcn)
  have hF0 : Forest [(a, b), (b, c)] := by
    refine forest_insert hF2 hab ?_
    intro hcn
    rcases conn_single (e := (b, c)) hbc hcn with h | ⟨hh1, hh2⟩ | ⟨hh1, hh2⟩
    · exact hab h
    · exact hab hh1
    · exact hac hh1
  have hadjimp : ∀ x y, Adjacent s x y → Adjacent [(a, b), (b, c)] x y := by
    intro x y hxy
    rcases hxy with hm | hm <;> rcases hsub _ hm with h | h | h | h <;>
      (injection h with hx hy; rw [hx, hy]; simp [Adjacent])
  have hFs : Forest s := forest_of_adj_imp hadjimp hF0
  constructor
  · exact in_conflict_true_casc hFs hac hconn (Nat.le_refl _)
  · have hnotac : (a, c) ∉ s := by
      intro hm
      rcases hsub _ hm with h | h | h | h
      · injection h with hx hy
        exact hbc hy.symm
      · injection h with hx hy
        exact hab hx
      · injection h with hx hy
        exact hab hx
      · injection h with hx hy
        exact hac hx
    have hnotca : (c, a) ∉ s := by
      intro hm
      rcases hsub _ hm with h | h | h | h
      · injection h with hx hy
        exact hac hx.symm
      · injection h with hx hy
        exact hbc hx.symm
      · injection h with hx hy
        exact hbc hx.symm
      · injection h with hx hy
        exact hab hy
    rw [show default_fuel s = 2 * s.length + 1 + 1 from rfl, in_conflict_nocasc]
    have hp1 : pexists s a c = false := by
      simp [pexists, hnotac]
    have hp2 : pexists s c a = false := by
      simp [pexists, hnotca]
    rw [hp1, hp2]
    rfl

/-- Witness for C1 at a concrete orientation and order. -/
theorem C1_cascading_monotonicity_witness :
    in_conflict [(0, 1), (1, 2)] true (default_fuel [(0, 1), (1, 2)]) 0 2 = some true
    ∧ in_conflict [(0, 1), (1, 2)] false (default_fuel [(0, 1), (1, 2)]) 0 2 = some false :=
  C1_cascading_monotonicity 0 1 2 (by decide) (by decide) (by decide)
    (0, 1) (1, 2) (Or.inl rfl) (Or.inl rfl) [(0, 1), (1, 2)] (Or.inl rfl)

end Conflicts
